import Mathlib

/-!
# BabooSSH credential registry (`baboossh/creds.py`) — verification development

A shallow embedding of the `Creds` class of BabooSSH and of the external
collaborators its contracts mention (the SQLite-backed store, the `Endpoint`
and `Connection` collaborators, the report-merging helper), together with
proofs and refutations of the specification's claims about it.

The database is modelled as an explicit state (`DbState`): the `creds` table is
a list of rows in rowid order, `nextId` is the next rowid SQLite would assign,
and `commits` counts `Db.get().commit()` calls.  Authentication-method codecs
are external plug-ins, so every operation that consults one is parameterised
over a `codec : String → String → String` mapping (type, content) to the
codec object's `identifier`.  `hashlib.sha256(...).hexdigest()` is embedded as
an executable SHA-256 over `Nat` byte lists.
-/

/-! ## SHA-256 (`hashlib.sha256(...).hexdigest()`), over `Nat` bytes -/

/-- Truncate to an unsigned 32-bit value. -/
def u32 (n : Nat) : Nat := n % 4294967296

/-- Right-rotate a 32-bit value by `n` bits. -/
def rotr32 (n x : Nat) : Nat := u32 ((x >>> n) ||| (x <<< (32 - n)))

/-- The 64 SHA-256 round constants. -/
def shaK : List Nat :=
  [1116352408, 1899447441, 3049323471, 3921009573,
   961987163, 1508970993, 2453635748, 2870763221,
   3624381080, 310598401, 607225278, 1426881987,
   1925078388, 2162078206, 2614888103, 3248222580,
   3835390401, 4022224774, 264347078, 604807628,
   770255983, 1249150122, 1555081692, 1996064986,
   2554220882, 2821834349, 2952996808, 3210313671,
   3336571891, 3584528711, 113926993, 338241895,
   666307205, 773529912, 1294757372, 1396182291,
   1695183700, 1986661051, 2177026350, 2456956037,
   2730485921, 2820302411, 3259730800, 3345764771,
   3516065817, 3600352804, 4094571909, 275423344,
   430227734, 506948616, 659060556, 883997877,
   958139571, 1322822218, 1537002063, 1747873779,
   1955562222, 2024104815, 2227730452, 2361852424,
   2428436474, 2756734187, 3204031479, 3329325298]

/-- The SHA-256 initial hash state. -/
def shaInit : List Nat :=
  [1779033703, 3144134277, 1013904242, 2773480762,
   1359893119, 2600822924, 528734635, 1541459225]

/-- UTF-8 encoding of one character (Python's `str.encode()`), as bytes. -/
def utf8EncodeChar (c : Char) : List Nat :=
  let n := c.toNat
  if n < 128 then [n]
  else if n < 2048 then [192 + n / 64, 128 + n % 64]
  else if n < 65536 then [224 + n / 4096, 128 + (n / 64) % 64, 128 + n % 64]
  else [240 + n / 262144, 128 + (n / 4096) % 64, 128 + (n / 64) % 64, 128 + n % 64]

/-- UTF-8 encoding of a string (Python's `str.encode()`), as bytes. -/
def utf8Encode (s : String) : List Nat := s.data.flatMap utf8EncodeChar

/-- SHA-256 padding: append `0x80`, zeros to 56 mod 64, then the 64-bit
big-endian bit length. -/
def shaPad (msg : List Nat) : List Nat :=
  let len := msg.length
  let zeros := (119 - len % 64) % 64
  let bitLen := len * 8
  msg ++ [128] ++ List.replicate zeros 0 ++
    (List.range 8).map (fun i => (bitLen >>> (8 * (7 - i))) % 256)

/-- Group bytes into big-endian 32-bit words. -/
def bytesToWords : List Nat → List Nat
  | a :: b :: c :: d :: rest => (a * 16777216 + b * 65536 + c * 256 + d) :: bytesToWords rest
  | _ => []

/-- Extend a 16-word block to the 64-word message schedule. -/
def extendW (w : List Nat) : List Nat :=
  (List.range 48).foldl (fun w _ =>
    let i := w.length
    let wm15 := w.getD (i - 15) 0
    let wm2 := w.getD (i - 2) 0
    let s0 := (rotr32 7 wm15) ^^^ (rotr32 18 wm15) ^^^ (wm15 >>> 3)
    let s1 := (rotr32 17 wm2) ^^^ (rotr32 19 wm2) ^^^ (wm2 >>> 10)
    w ++ [u32 (w.getD (i - 16) 0 + s0 + w.getD (i - 7) 0 + s1)]) w

/-- One SHA-256 compression: fold the 64 rounds over one block and add the
result into the running hash state. -/
def shaCompress (hs ws : List Nat) : List Nat :=
  let w := extendW ws
  let st := (shaK.zip w).foldl (fun st kw =>
    match st with
    | [a, b, c, d, e, f, g, h] =>
      let bigS1 := (rotr32 6 e) ^^^ (rotr32 11 e) ^^^ (rotr32 25 e)
      let ch := (e &&& f) ^^^ ((4294967295 ^^^ e) &&& g)
      let temp1 := u32 (h + bigS1 + ch + kw.1 + kw.2)
      let bigS0 := (rotr32 2 a) ^^^ (rotr32 13 a) ^^^ (rotr32 22 a)
      let maj := (a &&& b) ^^^ (a &&& c) ^^^ (b &&& c)
      let temp2 := u32 (bigS0 + maj)
      [u32 (temp1 + temp2), a, b, c, u32 (d + temp1), e, f, g]
    | other => other) hs
  match hs, st with
  | [h0, h1, h2, h3, h4, h5, h6, h7], [a, b, c, d, e, f, g, h] =>
    [u32 (h0 + a), u32 (h1 + b), u32 (h2 + c), u32 (h3 + d),
     u32 (h4 + e), u32 (h5 + f), u32 (h6 + g), u32 (h7 + h)]
  | _, _ => hs

/-- Feed the padded message, 16 words per block, through the compression. -/
def shaBlocks (hs : List Nat) : List Nat → List Nat
  | w0 :: w1 :: w2 :: w3 :: w4 :: w5 :: w6 :: w7 ::
    w8 :: w9 :: w10 :: w11 :: w12 :: w13 :: w14 :: w15 :: rest =>
    shaBlocks (shaCompress hs [w0, w1, w2, w3, w4, w5, w6, w7,
                               w8, w9, w10, w11, w12, w13, w14, w15]) rest
  | _ => hs

/-- One lowercase hexadecimal digit. -/
def hexChar (n : Nat) : Char := if n < 10 then Char.ofNat (48 + n) else Char.ofNat (87 + n)

/-- A 32-bit word as 8 lowercase hex characters. -/
def wordToHex (w : Nat) : List Char := (List.range 8).map (fun i => hexChar ((w >>> (4 * (7 - i))) % 16))

/-- `hashlib.sha256(bytes).hexdigest()`: lowercase hex digest of a byte list. -/
def sha256Hex (msg : List Nat) : String :=
  String.mk ((shaBlocks shaInit (bytesToWords (shaPad msg))).foldr (fun w acc => wordToHex w ++ acc) [])

example : sha256Hex (utf8Encode "abc") =
    "ba7816bf8f01cfea414140de5dae2223b00361a396177a9cb410ff61f20015ad" := by rfl

example : sha256Hex (utf8Encode "") =
    "e3b0c44298fc1c149afbf4c8996fb92427ae41e4649b934ca495991b7852b855" := by rfl

/-! ## Data model: rows, the database state, and the `Creds` entity -/

/-- One row of the `creds` table:
`{id, type, content, identifier, scope (0/1), found (nullable endpoint id)}`. -/
structure CredsRow where
  id : Nat
  type : String
  content : String
  identifier : String
  scope : Nat
  found : Option Nat
deriving DecidableEq

/-- A dependent `Connection` row, as far as the credential registry sees it:
its id, the id of the credential it references, and whether its own cascading
delete succeeds (`ok`). -/
structure Conn where
  id : Nat
  creds : Nat
  ok : Bool
deriving DecidableEq

/-- The error a failing `Connection.delete()` raises, carrying the id of the
connection it originated from. -/
structure ConnErr where
  connId : Nat
deriving DecidableEq

/-- The Python `NameError` raised when a function body references an undefined
name. -/
inductive PyError where
  | nameError
deriving DecidableEq

/-- A deletion report: a mapping from entity-kind name to the list of removed
identifiers, as a key-ordered association list. -/
abbrev Report := List (String × List String)

/-- The observable database state: the `creds` table in rowid order, the next
rowid, the existing endpoint ids, the `connections` table, the codec objects'
side-state keyed by (type, content), and a commit counter. -/
structure DbState where
  creds : List CredsRow
  nextId : Nat
  endpoints : List Nat
  connections : List Conn
  objSide : List (String × String)
  commits : Nat
deriving DecidableEq

/-- The in-memory `Creds` entity: `credsType`, `credsContent`, the codec
object's `identifier`, and the persisted attributes `id`, `scope`, `found`
(the discovery endpoint, by id). -/
structure Creds where
  credsType : String
  credsContent : String
  identifier : String
  id : Option Nat
  scope : Bool
  found : Option Nat
deriving DecidableEq

/-- A codec registry: maps (credsType, credsContent) to the codec object's
`identifier` string (`Extensions.getAuthMethod(credsType)(credsContent).identifier`). -/
abbrev Codec := String → String → String

/-- `True`/`False` as SQLite stores Python booleans. -/
def boolToNat (b : Bool) : Nat := if b then 1 else 0

/-! ## External collaborators, modelled from the spec -/

/-- Modelled from the spec: the Endpoint collaborator's `findById(id) ->
Endpoint | none` (`Endpoint.find_one(endpoint_id=...)` is not under `src/`).
Endpoints are tracked by id, so the lookup returns the id when it exists. -/
def endpointFindOne (s : DbState) (endpoint_id : Nat) : Option Nat :=
  if s.endpoints.contains endpoint_id then some endpoint_id else none

/-- Modelled from the spec: `unstore_targets_merge` (in `baboossh.utils`, not
under `src/`) merges one kind's removed identifiers into a running report —
set union per kind, not overwrite. -/
def reportMerge1 (store : Report) (k : String) (ids : List String) : Report :=
  if store.any (fun p => p.1 == k) then
    store.map (fun p => if p.1 == k then (p.1, p.2 ++ ids.filter (fun i => !(p.2.contains i))) else p)
  else store ++ [(k, ids)]

/-- Modelled from the spec: `unstore_targets_merge(store, data)` — merge every
kind of `data` into `store`, set union per kind. -/
def reportMerge (store data : Report) : Report :=
  data.foldl (fun acc p => reportMerge1 acc p.1 p.2) store

/-- `True` when the report lists identifier `v` under kind `k`. -/
def reportHas (r : Report) (k v : String) : Bool :=
  r.any (fun p => p.1 == k && p.2.contains v)

/-- Modelled from the spec: the Connection collaborator's cascading
`delete() -> report` (`Connection.delete` is not under `src/`): it removes the
connection, commits, and reports its id under kind `"Connection"`; when it
fails it raises, leaving the state unchanged and propagating its error. -/
def Conn.delete (conn : Conn) (s : DbState) : DbState × Except ConnErr Report :=
  if conn.ok then
    ({ s with connections := s.connections.filter (fun x => x.id != conn.id),
              commits := s.commits + 1 },
     .ok [("Connection", [toString conn.id])])
  else (s, .error ⟨conn.id⟩)

/-! ## The `Creds` operations, translated from `baboossh/creds.py` -/

/-- The `WHERE type=? AND identifier=?` condition on one row. -/
def rowMatch (t ident : String) (r : CredsRow) : Bool :=
  r.type == t && r.identifier == ident

/-- `SELECT ... FROM creds WHERE type=? AND identifier=?` followed by
`fetchone()`: the first row in rowid order matching both columns. -/
def findByTypeIdent (s : DbState) (t ident : String) : Option CredsRow :=
  s.creds.find? (rowMatch t ident)

/-- `Creds.__init__`: resolve the codec object's identifier, default
`id=None, scope=True, found=None`, then probe the store by (type, identifier)
and hydrate `id`, `scope` (`!= 0`) and `found` (via `Endpoint.find_one`) from
the stored row when one exists.  The constructor performs no write. -/
def Creds.init (codec : Codec) (credsType credsContent : String) (s : DbState) : Creds :=
  let ident := codec credsType credsContent
  match findByTypeIdent s credsType ident with
  | none => ⟨credsType, credsContent, ident, none, true, none⟩
  | some row =>
    ⟨credsType, credsContent, ident, some row.id, row.scope != 0,
      match row.found with
      | none => none
      | some fid => endpointFindOne s fid⟩

/-- `Creds.get_id`: `sha256((credsType + obj.identifier).encode()).hexdigest()`. -/
def Creds.get_id (codec : Codec) (credsType credsContent : String) : String :=
  sha256Hex (utf8Encode (credsType ++ codec credsType credsContent))

/-- `Creds.save`: with `id` set, `UPDATE creds SET type, content, identifier,
scope, found WHERE id = ?`; otherwise `INSERT` the row (rowid `s.nextId`),
then re-query `SELECT id WHERE type=? and identifier=?` and take the fetched
id.  Both paths end with `commit()`.  Returns the entity (with `id` now
populated on the insert path) and the new state. -/
def Creds.save (c : Creds) (s : DbState) : Creds × DbState :=
  match c.id with
  | some cid =>
    let row : CredsRow := ⟨cid, c.credsType, c.credsContent, c.identifier, boolToNat c.scope, c.found⟩
    (c, { s with creds := s.creds.map (fun r => if r.id == cid then row else r),
                 commits := s.commits + 1 })
  | none =>
    let row : CredsRow := ⟨s.nextId, c.credsType, c.credsContent, c.identifier, boolToNat c.scope, c.found⟩
    let s1 : DbState := { s with creds := s.creds ++ [row], nextId := s.nextId + 1 }
    ({ c with id := (findByTypeIdent s1 c.credsType c.identifier).map (·.id) },
     { s1 with commits := s1.commits + 1 })

/-- The `for connection in Connection.find_all(creds=self)` loop of
`Creds.delete`: delete each connection in turn, merging its report into the
accumulator; a raising `Connection.delete()` aborts the loop and propagates. -/
def deleteConns : List Conn → DbState → Report → DbState × Except ConnErr Report
  | [], s, acc => (s, .ok acc)
  | conn :: rest, s, acc =>
    match Conn.delete conn s with
    | (s1, .ok rep) => deleteConns rest s1 (reportMerge acc rep)
    | (s1, .error e) => (s1, .error e)

/-- `Creds.delete`: `return` (None) when `id is None`; otherwise delete every
connection referencing this credential (merging their reports), delete the
codec object's side-state, `DELETE FROM creds WHERE id = ?`, commit, merge
`{"Creds": [get_id(...)]}` into the report and return it. -/
def Creds.delete (codec : Codec) (c : Creds) (s : DbState) :
    DbState × Except ConnErr (Option Report) :=
  match c.id with
  | none => (s, .ok none)
  | some cid =>
    match deleteConns (s.connections.filter (fun x => x.creds == cid)) s [] with
    | (s1, .error e) => (s1, .error e)
    | (s1, .ok del_data) =>
      let keepSide := fun (p : String × String) => !(p.1 == c.credsType && p.2 == c.credsContent)
      let s2 : DbState := { s1 with objSide := s1.objSide.filter keepSide }
      let s3 : DbState := { s2 with creds := s2.creds.filter (fun r => r.id != cid),
                                    commits := s2.commits + 1 }
      (s3, .ok (some (reportMerge del_data
        [("Creds", [Creds.get_id codec c.credsType c.credsContent])])))

/-- `Creds.find_all(scope, found)`: with no `found` filter, select all rows or
the rows with `scope=?`, and rebuild a `Creds` from each row's (type, content);
with a `found` filter the body references the undefined name `endpoint`
(the parameter is named `found`), so Python raises `NameError` before any
query executes. -/
def Creds.find_all (codec : Codec) (s : DbState) (scope : Option Bool) (found : Option Nat) :
    Except PyError (List Creds) :=
  match found with
  | none =>
    match scope with
    | none => .ok (s.creds.map (fun r => Creds.init codec r.type r.content s))
    | some sc => .ok ((s.creds.filter (fun r => r.scope == boolToNat sc)).map
        (fun r => Creds.init codec r.type r.content s))
  | some _ => .error .nameError

/-- The spec's scenario codec (`type="password"`, `content="user:pass"` →
`identity="user"`): the identifier is the content up to the first colon. -/
def splitIdent : Codec := fun _ c => String.mk (c.data.takeWhile (fun ch => ch != ':'))

/-- Structural equality test for `Except` results, so concrete runs can be
settled by `decide`. -/
instance {ε α : Type} [DecidableEq ε] [DecidableEq α] : DecidableEq (Except ε α) := fun a b =>
  match a, b with
  | .ok x, .ok y =>
    if h : x = y then .isTrue (by rw [h]) else .isFalse (by intro hc; cases hc; exact h rfl)
  | .error x, .error y =>
    if h : x = y then .isTrue (by rw [h]) else .isFalse (by intro hc; cases hc; exact h rfl)
  | .ok _, .error _ => .isFalse (by intro hc; cases hc)
  | .error _, .ok _ => .isFalse (by intro hc; cases hc)

/-- Row well-formedness, `Bool`-valued: pairwise distinct ids, pairwise
distinct (type, identifier) pairs, and every id below the next rowid. -/
def rowsOk : List CredsRow → Nat → Bool
  | [], _ => true
  | r :: rest, n =>
    decide (r.id < n) &&
    rest.all (fun x => x.id != r.id && (x.type != r.type || x.identifier != r.identifier)) &&
    rowsOk rest n

/-- Database invariant used by the uniqueness claims: the `creds` table is
well-formed. -/
def DbInv (s : DbState) : Bool := rowsOk s.creds s.nextId

/-! ## Helper lemmas -/

theorem rowMatch_iff {t ident : String} {r : CredsRow} :
    rowMatch t ident r = true ↔ r.type = t ∧ r.identifier = ident := by
  simp [rowMatch]

theorem boolToNat_bne_zero (b : Bool) : ((boolToNat b) != 0) = b := by
  cases b <;> rfl

/-- An `UPDATE ... WHERE id = ?` touching no stored id leaves the table as it
was. -/
theorem map_update_no_hit (l : List CredsRow) (cid : Nat) (nr : CredsRow)
    (h : ∀ r ∈ l, r.id ≠ cid) :
    l.map (fun r => if r.id == cid then nr else r) = l := by
  induction l with
  | nil => rfl
  | cons x xs ih =>
    have hx : x.id ≠ cid := h x (by simp)
    simp only [List.map_cons, if_neg, beq_eq_false_iff_ne.mpr hx]
    rw [if_neg (by simp [hx])]
    rw [ih (fun r hr => h r (by simp [hr]))]

theorem find?_append_of_none {p : CredsRow → Bool} {l1 l2 : List CredsRow}
    (h : l1.find? p = none) : (l1 ++ l2).find? p = l2.find? p := by
  rw [List.find?_append, h]; rfl

/-- Every stored row's id is below the next rowid. -/
theorem rowsOk_id_lt {l : List CredsRow} {n : Nat} (h : rowsOk l n = true) :
    ∀ r ∈ l, r.id < n := by
  induction l with
  | nil => intro r hr; cases hr
  | cons x xs ih =>
    simp only [rowsOk, Bool.and_eq_true, decide_eq_true_eq] at h
    intro r hr
    rcases List.mem_cons.mp hr with rfl | hr'
    · exact h.1.1
    · exact ih h.2 r hr'

theorem rowsOk_succ {l : List CredsRow} {n : Nat} (h : rowsOk l n = true) :
    rowsOk l (n + 1) = true := by
  induction l with
  | nil => rfl
  | cons x xs ih =>
    simp only [rowsOk, Bool.and_eq_true, decide_eq_true_eq] at h ⊢
    exact ⟨⟨Nat.lt_succ_of_lt h.1.1, h.1.2⟩, ih h.2⟩

/-- A row fails the (type, identifier) condition when one column differs. -/
theorem rowMatch_false_iff {t ident : String} {r : CredsRow} :
    rowMatch t ident r = false ↔ ¬(r.type = t ∧ r.identifier = ident) := by
  rw [← Bool.not_eq_true, rowMatch_iff]

/-- Appending a fresh row (new id, identity matched by no stored row) keeps
the table well-formed. -/
theorem rowsOk_append_fresh {l : List CredsRow} {n : Nat} {t ident : String}
    {row : CredsRow} (h : rowsOk l n = true)
    (hnone : ∀ x ∈ l, rowMatch t ident x = false)
    (hrow : rowMatch t ident row = true) (hidr : row.id = n) :
    rowsOk (l ++ [row]) (n + 1) = true := by
  induction l with
  | nil =>
    simp only [List.nil_append, rowsOk, Bool.and_eq_true, decide_eq_true_eq, List.all_nil]
    exact ⟨⟨by omega, trivial⟩, trivial⟩
  | cons x xs ih =>
    have hxm := rowMatch_false_iff.mp (hnone x (by simp))
    have hr := rowMatch_iff.mp hrow
    simp only [rowsOk, Bool.and_eq_true, decide_eq_true_eq] at h
    have hrec := ih h.2 (fun y hy => hnone y (by simp [hy]))
    simp only [List.cons_append, rowsOk, Bool.and_eq_true, decide_eq_true_eq, List.append_eq,
      List.all_append, List.all_cons, List.all_nil, Bool.and_true]
    refine ⟨⟨Nat.lt_succ_of_lt h.1.1, h.1.2, ?_⟩, hrec⟩
    simp only [Bool.and_eq_true, bne_iff_ne, ne_eq, Bool.or_eq_true]
    constructor
    · have := h.1.1
      omega
    · by_cases hx1 : x.type = t
      · right
        rw [hr.2]
        intro hc
        exact hxm ⟨hx1, hc.symm⟩
      · left
        rw [hr.1]
        intro hc
        exact hx1 hc.symm
theorem update_row_facts {l : List CredsRow} {n : Nat} {t ident : String}
    {row0 : CredsRow} (nr : CredsRow)
    (h : rowsOk l n = true)
    (hfind : l.find? (rowMatch t ident) = some row0)
    (hidn : nr.id = row0.id) (hnr : rowMatch t ident nr = true) :
    (l.map (fun r => if r.id == row0.id then nr else r)).find? (rowMatch t ident) = some nr ∧
    (l.map (fun r => if r.id == row0.id then nr else r)).filter (rowMatch t ident) = [nr] ∧
    rowsOk (l.map (fun r => if r.id == row0.id then nr else r)) n = true := by
  induction l with
  | nil => cases hfind
  | cons x xs ih =>
    have hnr' := rowMatch_iff.mp hnr
    simp only [rowsOk, Bool.and_eq_true, decide_eq_true_eq] at h
    obtain ⟨⟨hlt, hall⟩, hxs⟩ := h
    rw [List.all_eq_true] at hall
    by_cases hph : rowMatch t ident x = true
    · -- head matches: the found row is the head
      rw [List.find?_cons_of_pos _ hph] at hfind
      injection hfind with hx0
      subst hx0
      have hx' := rowMatch_iff.mp hph
      have hmap : xs.map (fun r => if r.id == x.id then nr else r) = xs := by
        apply map_update_no_hit
        intro r hr
        have := hall r hr
        simp only [Bool.and_eq_true, bne_iff_ne, ne_eq] at this
        exact this.1
      have hfx : (if x.id == x.id then nr else x) = nr := by
        rw [if_pos (beq_self_eq_true x.id)]
      simp only [List.map_cons, hfx, hmap]
      refine ⟨List.find?_cons_of_pos _ hnr, ?_, ?_⟩
      · rw [List.filter_cons_of_pos hnr]
        rw [List.filter_eq_nil_iff.mpr]
        intro r hr
        have := hall r hr
        simp only [Bool.and_eq_true, bne_iff_ne, ne_eq, Bool.or_eq_true] at this
        rw [rowMatch_iff]
        rintro ⟨h1, h2⟩
        rcases this.2 with hc | hc
        · exact hc (h1.trans hx'.1.symm)
        · exact hc (h2.trans hx'.2.symm)
      · simp only [rowsOk, Bool.and_eq_true, decide_eq_true_eq, List.all_eq_true]
        refine ⟨⟨by omega, ?_⟩, hxs⟩
        intro r hr
        have := hall r hr
        simp only [Bool.and_eq_true, bne_iff_ne, ne_eq, Bool.or_eq_true] at this ⊢
        rw [hidn, hnr'.1, hnr'.2, ← hx'.1, ← hx'.2]
        exact this
    · -- head does not match: recurse into the tail
      rw [List.find?_cons_of_neg _ hph] at hfind
      have hr0m := List.find?_some hfind
      have hr0mem := List.mem_of_find?_eq_some hfind
      have hr0' := rowMatch_iff.mp hr0m
      have hsep := hall row0 hr0mem
      simp only [Bool.and_eq_true, bne_iff_ne, ne_eq, Bool.or_eq_true] at hsep
      have hfxx : (if x.id == row0.id then nr else x) = x := by
        rw [if_neg]
        simp only [beq_iff_eq]
        intro hc
        exact hsep.1 hc.symm
      obtain ⟨g1, g2, g3⟩ := ih hxs hfind
      simp only [List.map_cons, hfxx]
      refine ⟨?_, ?_, ?_⟩
      · rw [List.find?_cons_of_neg _ hph]
        exact g1
      · rw [List.filter_cons_of_neg hph]
        exact g2
      · simp only [rowsOk, Bool.and_eq_true, decide_eq_true_eq, List.all_eq_true]
        refine ⟨⟨hlt, ?_⟩, g3⟩
        intro y hy
        rw [List.mem_map] at hy
        obtain ⟨r, hrmem, hfr⟩ := hy
        by_cases hcid : (r.id == row0.id) = true
        · have hynr : y = nr := by
            rw [← hfr]
            simp [hcid]
          subst hynr
          simp only [Bool.and_eq_true, bne_iff_ne, ne_eq, Bool.or_eq_true]
          constructor
          · rw [hidn]
            exact hsep.1
          · rw [hnr'.1, hnr'.2, ← hr0'.1, ← hr0'.2]
            exact hsep.2
        · have hyr : y = r := by
            rw [← hfr]
            simp [hcid]
          rw [hyr]
          have := hall r hrmem
          simp only [Bool.and_eq_true] at this
          exact this

/-- Facts about the table right after inserting a row whose identity no stored
row matched: the re-query finds exactly the new row. -/
theorem insert_row_facts {l : List CredsRow} {t ident : String} {row : CredsRow}
    (hnone : l.find? (rowMatch t ident) = none) (hrow : rowMatch t ident row = true) :
    (l ++ [row]).find? (rowMatch t ident) = some row ∧
    (l ++ [row]).filter (rowMatch t ident) = [row] := by
  have hmem := List.find?_eq_none.mp hnone
  constructor
  · rw [find?_append_of_none hnone, List.find?_cons_of_pos _ hrow]
  · rw [List.filter_append, List.filter_eq_nil_iff.mpr (fun a ha => hmem a ha),
      List.filter_cons_of_pos hrow]
    rfl

/-! ## Concrete states for witnesses and counterexamples -/

/-- A freshly initialised workspace database: empty tables, first rowid 1. -/
def dbEmpty : DbState := ⟨[], 1, [], [], [], 0⟩

/-- A populated workspace: two credentials (the second out of scope and
discovered on endpoint 7), three connections (two referencing credential 1),
and codec side-state for credential 1. -/
def dbEx : DbState :=
  { creds := [⟨1, "password", "user:a", "user", 1, none⟩,
              ⟨2, "password", "bob:b", "bob", 0, some 7⟩],
    nextId := 3, endpoints := [7],
    connections := [⟨10, 1, true⟩, ⟨11, 2, true⟩, ⟨12, 1, true⟩],
    objSide := [("password", "user:a")], commits := 0 }

/-- `dbEx` with the last connection's cascading delete failing. -/
def dbBad : DbState :=
  { dbEx with connections := [⟨10, 1, true⟩, ⟨11, 2, true⟩, ⟨12, 1, false⟩] }
/-- C1: constructing a `Creds` for the same (methodKind, content) again after
the first construction has been saved yields an entity with the same `id` (now
set) and the same persisted state (`scope` and discovery endpoint `found`),
and the table holds exactly one row for that (type, identifier) — the
constructor probes the store and hydrates from the stored row. -/
theorem creds_read_through_dedup (codec : Codec) (t cc : String) (s : DbState)
    (hInv : DbInv s = true) :
    let c1 := Creds.init codec t cc s
    let saved := Creds.save c1 s
    let c2 := Creds.init codec t cc saved.2
    c2.id = saved.1.id ∧ saved.1.id.isSome = true ∧ c2.scope = saved.1.scope ∧
    c2.found = saved.1.found ∧
    (saved.2.creds.filter (rowMatch t (codec t cc))).length = 1 := by
  dsimp only
  cases hfind : findByTypeIdent s t (codec t cc) with
  | none =>
    have hc1 : Creds.init codec t cc s = ⟨t, cc, codec t cc, none, true, none⟩ := by
      simp only [Creds.init, hfind]
    have hrow : rowMatch t (codec t cc) (⟨s.nextId, t, cc, codec t cc, 1, none⟩ : CredsRow) = true := by
      simp [rowMatch]
    have hins := insert_row_facts (l := s.creds) hfind hrow
    have hsave : Creds.save ⟨t, cc, codec t cc, none, true, none⟩ s =
        (⟨t, cc, codec t cc, some s.nextId, true, none⟩,
         { s with creds := s.creds ++ [⟨s.nextId, t, cc, codec t cc, 1, none⟩],
                  nextId := s.nextId + 1, commits := s.commits + 1 }) := by
      simp only [Creds.save, findByTypeIdent, boolToNat, if_pos]
      rw [hins.1]
      rfl
    have hc2 : Creds.init codec t cc
        { s with creds := s.creds ++ [⟨s.nextId, t, cc, codec t cc, 1, none⟩],
                 nextId := s.nextId + 1, commits := s.commits + 1 } =
        ⟨t, cc, codec t cc, some s.nextId, true, none⟩ := by
      simp only [Creds.init, findByTypeIdent]
      rw [hins.1]
      rfl
    rw [hc1, hsave, hc2]
    refine ⟨rfl, rfl, rfl, rfl, ?_⟩
    rw [hins.2]
    rfl
  | some row0 =>
    have hty : (Creds.init codec t cc s).credsType = t := by
      simp only [Creds.init, hfind]
    have hcc : (Creds.init codec t cc s).credsContent = cc := by
      simp only [Creds.init, hfind]
    have hident : (Creds.init codec t cc s).identifier = codec t cc := by
      simp only [Creds.init, hfind]
    have hid : (Creds.init codec t cc s).id = some row0.id := by
      simp only [Creds.init, hfind]
    have hfv : ∀ g, (Creds.init codec t cc s).found = some g → s.endpoints.contains g = true := by
      intro g hg
      simp only [Creds.init, hfind] at hg
      rcases hrf : row0.found with _ | fid
      · rw [hrf] at hg
        cases hg
      · rw [hrf] at hg
        simp only [endpointFindOne] at hg
        by_cases hcont : s.endpoints.contains fid = true
        · rw [if_pos hcont] at hg
          injection hg with hfg
          rw [← hfg]
          exact hcont
        · rw [if_neg hcont] at hg
          cases hg
    have hrow : rowMatch t (codec t cc) (⟨row0.id, t, cc, codec t cc, boolToNat ((Creds.init codec t cc s).scope), (Creds.init codec t cc s).found⟩ : CredsRow) = true := by
      simp [rowMatch]
    have hupd := update_row_facts (⟨row0.id, t, cc, codec t cc, boolToNat ((Creds.init codec t cc s).scope), (Creds.init codec t cc s).found⟩ : CredsRow) hInv hfind rfl hrow
    have hsave : Creds.save (Creds.init codec t cc s) s = (Creds.init codec t cc s, { s with creds := s.creds.map (fun r => if r.id == row0.id then ⟨row0.id, t, cc, codec t cc, boolToNat ((Creds.init codec t cc s).scope), (Creds.init codec t cc s).found⟩ else r), commits := s.commits + 1 }) := by
      simp only [Creds.save, hid, hty, hcc, hident]
    rw [hsave]
    generalize hS : (Creds.init codec t cc s).scope = sc at hupd ⊢
    generalize hF : (Creds.init codec t cc s).found = fv at hupd hfv ⊢
    refine ⟨?_, ?_, ?_, ?_, ?_⟩
    · rw [hid]
      simp only [Creds.init, findByTypeIdent]
      rw [hupd.1]
    · rw [hid]
      rfl
    · simp only [Creds.init, findByTypeIdent]
      rw [hupd.1]
      exact boolToNat_bne_zero _
    · simp only [Creds.init, findByTypeIdent]
      rw [hupd.1]
      rcases fv with _ | g
      · rfl
      · simp only [endpointFindOne]
        rw [if_pos (hfv g rfl)]
    · rw [hupd.2.1]
      rfl

/-- Witness for C1 at the spec's own scenario: `("password", "user:pass")`
against the empty workspace. -/
theorem creds_read_through_dedup_witness :
    let c1 := Creds.init splitIdent "password" "user:pass" dbEmpty
    let saved := Creds.save c1 dbEmpty
    let c2 := Creds.init splitIdent "password" "user:pass" saved.2
    c2.id = saved.1.id ∧ saved.1.id.isSome = true ∧ c2.scope = saved.1.scope ∧
    c2.found = saved.1.found ∧
    (saved.2.creds.filter (rowMatch "password" (splitIdent "password" "user:pass"))).length = 1 :=
  creds_read_through_dedup splitIdent "password" "user:pass" dbEmpty (by decide)

/-- C8: saving an unmodified `Creds` twice keeps its `id` and the table
stable — the first save on an unsaved credential inserts one row and populates
`id` by re-querying the store by (type, identifier); the second save, with
`id` now set, updates the existing row in place, changing nothing. -/
theorem creds_save_twice_stable (codec : Codec) (t cc : String) (s : DbState)
    (hInv : DbInv s = true)
    (hfresh : findByTypeIdent s t (codec t cc) = none) :
    let c1 := Creds.init codec t cc s
    let r1 := Creds.save c1 s
    let r2 := Creds.save r1.1 r1.2
    r1.1.id = some s.nextId ∧ r2.1.id = some s.nextId ∧ r2.2.creds = r1.2.creds ∧
    r1.2.creds.length = s.creds.length + 1 := by
  dsimp only
  have hc1 : Creds.init codec t cc s = ⟨t, cc, codec t cc, none, true, none⟩ := by
    simp only [Creds.init, hfresh]
  have hrow : rowMatch t (codec t cc) (⟨s.nextId, t, cc, codec t cc, 1, none⟩ : CredsRow) = true := by
    simp [rowMatch]
  have hins := insert_row_facts (l := s.creds) hfresh hrow
  have hsave : Creds.save ⟨t, cc, codec t cc, none, true, none⟩ s =
      (⟨t, cc, codec t cc, some s.nextId, true, none⟩,
       { s with creds := s.creds ++ [⟨s.nextId, t, cc, codec t cc, 1, none⟩],
                nextId := s.nextId + 1, commits := s.commits + 1 }) := by
    simp only [Creds.save, findByTypeIdent, boolToNat, if_pos]
    rw [hins.1]
    rfl
  rw [hc1, hsave]
  have hmap : (s.creds ++ [(⟨s.nextId, t, cc, codec t cc, 1, none⟩ : CredsRow)]).map
      (fun r => if r.id == s.nextId then (⟨s.nextId, t, cc, codec t cc, boolToNat true, none⟩ : CredsRow) else r) =
      s.creds ++ [⟨s.nextId, t, cc, codec t cc, 1, none⟩] := by
    rw [List.map_append, map_update_no_hit]
    · simp [boolToNat]
    · intro r hr
      have := rowsOk_id_lt hInv r hr
      omega
  refine ⟨rfl, rfl, ?_, by simp⟩
  simp only [Creds.save]
  rw [hmap]

/-- Witness for C8 on the empty workspace. -/
theorem creds_save_twice_stable_witness :
    let c1 := Creds.init splitIdent "password" "user:pass" dbEmpty
    let r1 := Creds.save c1 dbEmpty
    let r2 := Creds.save r1.1 r1.2
    r1.1.id = some dbEmpty.nextId ∧ r2.1.id = some dbEmpty.nextId ∧ r2.2.creds = r1.2.creds ∧
    r1.2.creds.length = dbEmpty.creds.length + 1 :=
  creds_save_twice_stable splitIdent "password" "user:pass" dbEmpty (by decide) (by decide)
/-- C4 fails as stated on its report: deleting a never-saved credential
(`id = None`) indeed touches nothing, but the Python `return` yields `None`,
not an empty report dictionary. -/
theorem creds_delete_unsaved_counterexample :
    Creds.delete splitIdent (Creds.init splitIdent "password" "user:pass" dbEmpty) dbEmpty
        = (dbEmpty, .ok none) ∧
    Creds.delete splitIdent (Creds.init splitIdent "password" "user:pass" dbEmpty) dbEmpty
        ≠ (dbEmpty, .ok (some ([] : Report))) :=
  ⟨by decide, by decide⟩

/-- C4 (amended): deleting a credential whose `id` is `None` performs no store
operation and no commit — the state is returned unchanged — and yields no
report (`None`) rather than an empty report. -/
theorem creds_delete_unsaved_noop (codec : Codec) (c : Creds) (s : DbState)
    (h : c.id = none) :
    Creds.delete codec c s = (s, .ok none) := by
  simp only [Creds.delete, h]

/-- Witness for C4 (amended): a fresh unsaved credential against the populated
workspace. -/
theorem creds_delete_unsaved_noop_witness :
    Creds.delete splitIdent ⟨"password", "nobody:x", "nobody", none, true, none⟩ dbEx
        = (dbEx, .ok none) :=
  creds_delete_unsaved_noop splitIdent ⟨"password", "nobody:x", "nobody", none, true, none⟩ dbEx rfl

/-- C5: the fingerprint `get_id` is a pure function of (methodKind, content):
it is the SHA-256 hex digest of the UTF-8 bytes of methodKind concatenated
with the codec-derived identity, so any two contents resolving to the same
identity under the same methodKind share a fingerprint. -/
theorem creds_get_id_deterministic (codec : Codec) (t c1 c2 : String) :
    Creds.get_id codec t c1 = sha256Hex (utf8Encode (t ++ codec t c1)) ∧
    (codec t c1 = codec t c2 → Creds.get_id codec t c1 = Creds.get_id codec t c2) := by
  refine ⟨rfl, fun h => ?_⟩
  simp only [Creds.get_id, h]

/-- Witness for C5: `"user:a"` and `"user:b"` resolve to the same identity
`"user"`, hence the same fingerprint. -/
theorem creds_get_id_deterministic_witness :
    Creds.get_id splitIdent "password" "user:a"
        = sha256Hex (utf8Encode ("password" ++ splitIdent "password" "user:a")) ∧
    Creds.get_id splitIdent "password" "user:a" = Creds.get_id splitIdent "password" "user:b" :=
  ⟨(creds_get_id_deterministic splitIdent "password" "user:a" "user:b").1,
   (creds_get_id_deterministic splitIdent "password" "user:a" "user:b").2 (by decide)⟩

/-- C6 fails as stated: `save()` on a credential whose `id` points at no
stored row completes silently — the SQL `UPDATE ... WHERE id = ?` matches
zero rows, no `NotFoundError` exists anywhere in the code path, and the
(empty) table is left untouched while the commit still happens. -/
theorem creds_save_missing_id_counterexample :
    Creds.save ⟨"password", "user:pass", "user", some 5, true, none⟩ dbEmpty
        = (⟨"password", "user:pass", "user", some 5, true, none⟩, { dbEmpty with commits := 1 })
      ∧ dbEmpty.creds = [] :=
  ⟨by decide, by decide⟩

/-- C6 (amended): the update path of `save()`, taken when `id` is set but no
row carries that id, silently completes: the entity is unchanged, the table is
unchanged, and the commit is still issued — no error is raised. -/
theorem creds_save_missing_id_silent (c : Creds) (s : DbState) (i : Nat)
    (hid : c.id = some i) (h : ∀ r ∈ s.creds, r.id ≠ i) :
    Creds.save c s = (c, { s with creds := s.creds, commits := s.commits + 1 }) := by
  simp only [Creds.save, hid]
  rw [map_update_no_hit _ _ _ h]

/-- Witness for C6 (amended): id 99 exists in no row of the populated
workspace. -/
theorem creds_save_missing_id_silent_witness :
    Creds.save ⟨"password", "user:a", "user", some 99, true, none⟩ dbEx
        = (⟨"password", "user:a", "user", some 99, true, none⟩,
           { dbEx with creds := dbEx.creds, commits := dbEx.commits + 1 }) :=
  creds_save_missing_id_silent ⟨"password", "user:a", "user", some 99, true, none⟩ dbEx 99
    rfl (by decide)

/-- C7: the scope filter of `find_all` is correct — `scope=True` returns
exactly the credentials whose stored scope is 1 — but any call with a
discovery-endpoint filter crashes: the body references the undefined name
`endpoint` where the parameter is named `found`, so Python raises `NameError`
before any query runs, for every combination with the scope filter. -/
theorem creds_find_all_found_filter_name_error :
    Creds.find_all splitIdent dbEx (some true) none
        = .ok [Creds.init splitIdent "password" "user:a" dbEx] ∧
    Creds.find_all splitIdent dbEx (some false) none
        = .ok [Creds.init splitIdent "password" "bob:b" dbEx] ∧
    Creds.find_all splitIdent dbEx none (some 7) = .error .nameError ∧
    Creds.find_all splitIdent dbEx (some true) (some 7) = .error .nameError := by
  refine ⟨by decide, by decide, rfl, rfl⟩
/-- Merging preserves every identifier already in the report. -/
theorem reportHas_merge1_of_has {st : Report} {k2 : String} {ids : List String}
    {k v : String} (h : reportHas st k v = true) :
    reportHas (reportMerge1 st k2 ids) k v = true := by
  simp only [reportHas, List.any_eq_true, Bool.and_eq_true, beq_iff_eq] at h
  obtain ⟨p, hp, hk, hcv⟩ := h
  simp only [reportMerge1]
  by_cases hany : st.any (fun p => p.1 == k2) = true
  · rw [if_pos hany]
    simp only [reportHas, List.any_map, List.any_eq_true, Function.comp_apply]
    refine ⟨p, hp, ?_⟩
    by_cases hpk : (p.1 == k2) = true
    · rw [if_pos hpk]
      simp only [Bool.and_eq_true, beq_iff_eq]
      refine ⟨hk, ?_⟩
      rw [List.elem_iff] at hcv ⊢
      exact List.mem_append_left _ hcv
    · rw [if_neg hpk]
      simp only [Bool.and_eq_true, beq_iff_eq]
      exact ⟨hk, hcv⟩
  · rw [if_neg hany]
    simp only [reportHas, List.any_append, Bool.or_eq_true]
    left
    simp only [reportHas, List.any_eq_true, Bool.and_eq_true, beq_iff_eq]
    exact ⟨p, hp, hk, hcv⟩

/-- Merging a kind's identifiers makes them members of the merged report. -/
theorem reportHas_merge1_self {st : Report} {k : String} {ids : List String} {v : String}
    (h : v ∈ ids) : reportHas (reportMerge1 st k ids) k v = true := by
  simp only [reportMerge1]
  by_cases hany : st.any (fun p => p.1 == k) = true
  · rw [if_pos hany]
    simp only [List.any_eq_true, beq_iff_eq] at hany
    obtain ⟨p, hp, hk⟩ := hany
    simp only [reportHas, List.any_map, List.any_eq_true, Function.comp_apply]
    refine ⟨p, hp, ?_⟩
    rw [if_pos (beq_iff_eq.mpr hk)]
    simp only [Bool.and_eq_true, beq_iff_eq]
    refine ⟨hk, ?_⟩
    rw [List.elem_iff]
    by_cases hin : p.2.contains v = true
    · exact List.mem_append_left _ (List.elem_iff.mp hin)
    · refine List.mem_append_right _ ?_
      rw [List.mem_filter]
      refine ⟨h, ?_⟩
      simp only [Bool.not_eq_true', Bool.not_eq_true]
      simp only [List.elem_iff] at hin
      simpa using hin
  · rw [if_neg hany]
    simp only [reportHas, List.any_append, Bool.or_eq_true]
    right
    simp only [List.any_cons, List.any_nil, Bool.or_false, Bool.and_eq_true, beq_iff_eq]
    exact ⟨trivial, List.elem_iff.mpr h⟩

/-- The connection rows left after deleting every connection of `conns`. -/
def removeConns (conns : List Conn) (cs : List Conn) : List Conn :=
  conns.foldl (fun cs conn => cs.filter (fun x => x.id != conn.id)) cs

/-- A row surviving `removeConns` was there before and shares no id with a
deleted connection. -/
theorem mem_removeConns {conns : List Conn} {cs : List Conn} {x : Conn}
    (h : x ∈ removeConns conns cs) : x ∈ cs ∧ ∀ conn ∈ conns, x.id ≠ conn.id := by
  induction conns generalizing cs with
  | nil => exact ⟨h, by intro conn hc; cases hc⟩
  | cons conn rest ih =>
    obtain ⟨hmem, hrest⟩ := ih h
    rw [List.mem_filter] at hmem
    refine ⟨hmem.1, ?_⟩
    intro y hy
    rcases List.mem_cons.mp hy with rfl | hy'
    · simpa using hmem.2
    · exact hrest y hy'
/-- Running the connection-deletion loop when every connection's own delete
succeeds: each connection is removed and committed in turn, and every
connection's id enters the merged report, which also keeps everything the
accumulator already listed. -/
theorem deleteConns_ok (conns : List Conn) (s : DbState) (acc : Report)
    (hok : ∀ x ∈ conns, x.ok = true) :
    ∃ rep, deleteConns conns s acc =
        ({ s with connections := removeConns conns s.connections,
                  commits := s.commits + conns.length }, .ok rep) ∧
      (∀ k v, reportHas acc k v = true → reportHas rep k v = true) ∧
      (∀ conn ∈ conns, reportHas rep "Connection" (toString conn.id) = true) := by
  induction conns generalizing s acc with
  | nil =>
    refine ⟨acc, rfl, fun k v h => h, ?_⟩
    intro conn hc
    cases hc
  | cons conn rest ih =>
    have hconn : conn.ok = true := hok conn (by simp)
    have hdel : Conn.delete conn s =
        ({ s with connections := s.connections.filter (fun x => x.id != conn.id),
                  commits := s.commits + 1 },
         .ok [("Connection", [toString conn.id])]) := by
      simp only [Conn.delete, hconn, if_pos]
    obtain ⟨rep, heq, hpres, hrest⟩ :=
      ih { s with connections := s.connections.filter (fun x => x.id != conn.id),
                  commits := s.commits + 1 }
         (reportMerge1 acc "Connection" [toString conn.id])
         (fun x hx => hok x (by simp [hx]))
    refine ⟨rep, ?_, ?_, ?_⟩
    · show (match Conn.delete conn s with
        | (s1, .ok rep) => deleteConns rest s1 (reportMerge acc rep)
        | (s1, .error e) => (s1, .error e)) = _
      rw [hdel]
      show deleteConns rest _ (reportMerge1 acc "Connection" [toString conn.id]) = _
      rw [heq]
      dsimp only
      have hcm : s.commits + 1 + rest.length = s.commits + (rest.length + 1) := by omega
      rw [hcm]
      rfl
    · intro k v h
      exact hpres k v (reportHas_merge1_of_has h)
    · intro x hx
      rcases List.mem_cons.mp hx with rfl | hx'
      · exact hpres _ _ (reportHas_merge1_self (by simp))
      · exact hrest x hx'

/-- Running the connection-deletion loop when one connection's delete fails:
the loop stops at the first failure, keeps the deletions already performed,
and propagates the originating error. -/
theorem deleteConns_fail (pre : List Conn) (bad : Conn) (post : List Conn)
    (s : DbState) (acc : Report)
    (hpre : ∀ x ∈ pre, x.ok = true) (hbad : bad.ok = false) :
    deleteConns (pre ++ bad :: post) s acc =
      ({ s with connections := removeConns pre s.connections,
                commits := s.commits + pre.length }, .error ⟨bad.id⟩) := by
  induction pre generalizing s acc with
  | nil =>
    show (match Conn.delete bad s with
      | (s1, .ok rep) => deleteConns post s1 (reportMerge acc rep)
      | (s1, .error e) => (s1, .error e)) = _
    rw [show Conn.delete bad s = (s, .error ⟨bad.id⟩) by simp only [Conn.delete, hbad]; rfl]
    rfl
  | cons conn rest ih =>
    have hconn : conn.ok = true := hpre conn (by simp)
    show (match Conn.delete conn s with
      | (s1, .ok rep) => deleteConns (rest ++ bad :: post) s1 (reportMerge acc rep)
      | (s1, .error e) => (s1, .error e)) = _
    rw [show Conn.delete conn s =
        ({ s with connections := s.connections.filter (fun x => x.id != conn.id),
                  commits := s.commits + 1 },
         .ok [("Connection", [toString conn.id])]) by simp only [Conn.delete, hconn, if_pos]]
    show deleteConns (rest ++ bad :: post) _ (reportMerge1 acc "Connection" [toString conn.id]) = _
    rw [ih _ _ (fun x hx => hpre x (by simp [hx]))]
    dsimp only
    have hcm : s.commits + 1 + rest.length = s.commits + (rest.length + 1) := by omega
    rw [hcm]
    rfl
/-- C3: deleting a saved credential whose dependent connections all delete
cleanly succeeds and returns a merged report: every connection referencing the
credential is gone from the store afterwards, each of their ids is reported
under kind `"Connection"`, the credential's fingerprint is reported under kind
`"Creds"`, the credential's row is gone, and the codec object's side-state for
its (type, content) is gone. -/
theorem creds_delete_cascade (codec : Codec) (c : Creds) (s : DbState) (cid : Nat)
    (hid : c.id = some cid)
    (hok : ∀ x ∈ s.connections, x.creds = cid → x.ok = true) :
    ∃ rep, (Creds.delete codec c s).2 = .ok (some rep) ∧
      reportHas rep "Creds" (Creds.get_id codec c.credsType c.credsContent) = true ∧
      (∀ x ∈ s.connections, x.creds = cid → reportHas rep "Connection" (toString x.id) = true) ∧
      (∀ x ∈ (Creds.delete codec c s).1.connections, x.creds ≠ cid) ∧
      (∀ r ∈ (Creds.delete codec c s).1.creds, r.id ≠ cid) ∧
      (∀ p ∈ (Creds.delete codec c s).1.objSide, ¬(p.1 = c.credsType ∧ p.2 = c.credsContent)) := by
  obtain ⟨rep, heq, hpres, hconnrep⟩ :=
    deleteConns_ok (s.connections.filter (fun x => x.creds == cid)) s []
      (fun x hx => by
        rw [List.mem_filter] at hx
        exact hok x hx.1 (by simpa using hx.2))
  have hdel : Creds.delete codec c s =
      ({ creds := s.creds.filter (fun r => r.id != cid), nextId := s.nextId,
         endpoints := s.endpoints,
         connections := removeConns (s.connections.filter (fun x => x.creds == cid)) s.connections,
         objSide := s.objSide.filter (fun p => !(p.1 == c.credsType && p.2 == c.credsContent)),
         commits := s.commits + (s.connections.filter (fun x => x.creds == cid)).length + 1 },
       .ok (some (reportMerge1 rep "Creds" [Creds.get_id codec c.credsType c.credsContent]))) := by
    simp only [Creds.delete, hid]
    rw [heq]
    rfl
  rw [hdel]
  refine ⟨reportMerge1 rep "Creds" [Creds.get_id codec c.credsType c.credsContent],
    rfl, reportHas_merge1_self (by simp), ?_, ?_, ?_, ?_⟩
  · intro x hx hcid
    refine reportHas_merge1_of_has (hconnrep x ?_)
    rw [List.mem_filter]
    exact ⟨hx, by simp [hcid]⟩
  · intro x hx hcid
    obtain ⟨hmem, hsep⟩ := mem_removeConns hx
    exact hsep x (List.mem_filter.mpr ⟨hmem, by simp [hcid]⟩) rfl
  · intro r hr
    have := (List.mem_filter.mp hr).2
    simpa using this
  · intro p hp
    have h2 := (List.mem_filter.mp hp).2
    intro hc
    rw [hc.1, hc.2] at h2
    simp at h2

/-- C9: if a dependent connection's cascading delete fails partway through the
loop, the whole deletion aborts with the originating error: the connections
already processed stay deleted, but the credential's row, the codec object's
side-state and the final commit are untouched — every field of the resulting
state other than `connections` and the connections' own commits is that of the
starting state, so the credential row deletion provably happens only after all
connection deletions. -/
theorem creds_delete_aborts_on_failure (codec : Codec) (c : Creds) (s : DbState) (cid : Nat)
    (pre : List Conn) (bad : Conn) (post : List Conn)
    (hid : c.id = some cid)
    (hsplit : s.connections.filter (fun x => x.creds == cid) = pre ++ bad :: post)
    (hpre : ∀ x ∈ pre, x.ok = true) (hbad : bad.ok = false) :
    Creds.delete codec c s =
      ({ s with connections := removeConns pre s.connections,
                commits := s.commits + pre.length }, .error ⟨bad.id⟩) := by
  simp only [Creds.delete, hid]
  rw [hsplit, deleteConns_fail pre bad post s [] hpre hbad]

/-- C10: `delete()` never resets the entity's `id`, so calling it again on the
same instance — the store now holding no matching connection, row or
side-state — is not the unsaved no-op: it re-runs the cascade path, the
`DELETE` matches no rows without error, a commit is still issued, and the
returned report again carries the credential's fingerprint under `"Creds"`
although nothing was removed. -/
theorem creds_delete_after_delete (codec : Codec) (c : Creds) (s : DbState) (cid : Nat)
    (hid : c.id = some cid)
    (hconn : ∀ x ∈ s.connections, x.creds ≠ cid)
    (hrows : ∀ r ∈ s.creds, r.id ≠ cid)
    (hside : ∀ p ∈ s.objSide, ¬(p.1 = c.credsType ∧ p.2 = c.credsContent)) :
    Creds.delete codec c s =
      ({ s with commits := s.commits + 1 },
       .ok (some [("Creds", [Creds.get_id codec c.credsType c.credsContent])])) := by
  have hfilt : s.connections.filter (fun x => x.creds == cid) = [] :=
    List.filter_eq_nil_iff.mpr (fun x hx => by simpa using hconn x hx)
  have hobj : s.objSide.filter (fun p => !(p.1 == c.credsType && p.2 == c.credsContent)) = s.objSide := by
    refine List.filter_eq_self.mpr (fun p hp => ?_)
    by_cases h1 : p.1 = c.credsType
    · have h2 : ¬p.2 = c.credsContent := fun h2 => hside p hp ⟨h1, h2⟩
      simp [h1, h2]
    · simp [h1]
  have hcr : s.creds.filter (fun r => r.id != cid) = s.creds :=
    List.filter_eq_self.mpr (fun r hr => by simpa using hrows r hr)
  simp only [Creds.delete, hid]
  rw [hfilt]
  simp only [deleteConns]
  rw [hobj, hcr]
  rfl

/-- Witness for C3: deleting credential 1 of the populated workspace, which
two connections (ids 10 and 12) reference. -/
theorem creds_delete_cascade_witness :
    ∃ rep, (Creds.delete splitIdent ⟨"password", "user:a", "user", some 1, true, none⟩ dbEx).2
        = .ok (some rep) ∧
      reportHas rep "Creds" (Creds.get_id splitIdent "password" "user:a") = true ∧
      (∀ x ∈ dbEx.connections, x.creds = 1 → reportHas rep "Connection" (toString x.id) = true) ∧
      (∀ x ∈ (Creds.delete splitIdent ⟨"password", "user:a", "user", some 1, true, none⟩ dbEx).1.connections,
        x.creds ≠ 1) ∧
      (∀ r ∈ (Creds.delete splitIdent ⟨"password", "user:a", "user", some 1, true, none⟩ dbEx).1.creds,
        r.id ≠ 1) ∧
      (∀ p ∈ (Creds.delete splitIdent ⟨"password", "user:a", "user", some 1, true, none⟩ dbEx).1.objSide,
        ¬(p.1 = "password" ∧ p.2 = "user:a")) :=
  creds_delete_cascade splitIdent ⟨"password", "user:a", "user", some 1, true, none⟩ dbEx 1
    rfl (by decide)

/-- Witness for C9: in `dbBad`, connection 10 deletes cleanly and connection
12 fails, so the whole deletion aborts with connection 12's error while both
credential rows are still stored. -/
theorem creds_delete_aborts_on_failure_witness :
    Creds.delete splitIdent ⟨"password", "user:a", "user", some 1, true, none⟩ dbBad =
      ({ dbBad with connections := removeConns [⟨10, 1, true⟩] dbBad.connections,
                    commits := dbBad.commits + 1 }, .error ⟨12⟩) :=
  creds_delete_aborts_on_failure splitIdent ⟨"password", "user:a", "user", some 1, true, none⟩
    dbBad 1 [⟨10, 1, true⟩] ⟨12, 1, false⟩ [] rfl (by decide) (by decide) rfl

/-- The populated workspace after credential 1 was successfully deleted. -/
def dbAfterDelete : DbState :=
  { creds := [⟨2, "password", "bob:b", "bob", 0, some 7⟩], nextId := 3, endpoints := [7],
    connections := [⟨11, 2, true⟩], objSide := [], commits := 3 }

example :
    (Creds.delete splitIdent ⟨"password", "user:a", "user", some 1, true, none⟩ dbEx).1
      = dbAfterDelete := by decide

/-- Witness for C10: the second delete of credential 1, run against the state
the first delete left behind. -/
theorem creds_delete_after_delete_witness :
    Creds.delete splitIdent ⟨"password", "user:a", "user", some 1, true, none⟩ dbAfterDelete =
      ({ dbAfterDelete with commits := dbAfterDelete.commits + 1 },
       .ok (some [("Creds", [Creds.get_id splitIdent "password" "user:a"])])) :=
  creds_delete_after_delete splitIdent ⟨"password", "user:a", "user", some 1, true, none⟩
    dbAfterDelete 1 rfl (by decide) (by decide) (by decide)

/-! ## The `Unique` metaclass and reachable-state uniqueness -/

/-- The class-level instance cache of the `Unique` metaclass, mapping a
fingerprint key to the current field values of the one shared instance. -/
abbrev CredsCache := List (String × Creds)

/-- Modelled from the spec: the `Unique` metaclass (`baboossh.utils`, not
under `src/`; creds.py line 6, spec §9) — an identity-keyed class-level
instance cache: calling `Creds(credsType, credsContent)` first computes the
identity-based key `Creds.get_id(credsType, credsContent)`; a cached instance
under that key is returned as-is (the same shared object), otherwise
`__init__` runs and the new instance is cached under the key. -/
def credsCall (codec : Codec) (credsType credsContent : String)
    (s : DbState) (cache : CredsCache) : Creds × CredsCache :=
  let key := Creds.get_id codec credsType credsContent
  match cache.find? (fun p => p.1 == key) with
  | some p => (p.2, cache)
  | none =>
    let inst := Creds.init codec credsType credsContent s
    (inst, cache ++ [(key, inst)])

/-- Write an instance's updated field values back into its cache slot — the
Python mutation of the shared object (`save` assigning `self.id`). -/
def cacheWrite (cache : CredsCache) (key : String) (inst : Creds) : CredsCache :=
  cache.map (fun p => if p.1 == key then (p.1, inst) else p)

/-- One program step touching the credential registry: constructing
`Creds(t, c)`; calling `.save()` on the instance `Creds(t, c)` returns (every
live reference to a credential is the cached shared instance, so this covers
saving any previously obtained reference); or a process restart, which clears
the in-memory cache and keeps the database. -/
inductive CredsOp where
  | construct (credsType credsContent : String)
  | save (credsType credsContent : String)
  | restart
deriving DecidableEq

/-- Execute one step against the database and the instance cache. -/
def stepOp (codec : Codec) (st : DbState × CredsCache) : CredsOp → DbState × CredsCache
  | .construct t c => (st.1, (credsCall codec t c st.1 st.2).2)
  | .save t c =>
    let call := credsCall codec t c st.1 st.2
    let saved := Creds.save call.1 st.1
    (saved.2, cacheWrite call.2 (Creds.get_id codec t c) saved.1)
  | .restart => (st.1, [])

/-- Execute a sequence of steps. -/
def runOps (codec : Codec) (ops : List CredsOp) (st : DbState × CredsCache) :
    DbState × CredsCache :=
  ops.foldl (stepOp codec) st

-- The scenario the identity-keyed cache exists for: two contents with the
-- same identity, both constructed before either save; the second construction
-- is a cache hit on the shared instance, so the two saves are insert-then-
-- update on one object and the store ends with ONE row for the identity.
example :
    (((runOps splitIdent
        [.construct "password" "user:a", .construct "password" "user:b",
         .save "password" "user:a", .save "password" "user:b"]
        (dbEmpty, [])).1.creds.filter (rowMatch "password" "user")).length) = 1 := by
  decide

-- Across a restart the cache is empty but the store is probed by identity,
-- so re-construction hydrates and a further save still updates in place.
example :
    (((runOps splitIdent
        [.construct "password" "user:a", .save "password" "user:a", .restart,
         .construct "password" "user:b", .save "password" "user:b"]
        (dbEmpty, [])).1.creds.filter (rowMatch "password" "user")).length) = 1 := by
  decide
/-- A well-formed table holds at most one row per (type, identifier). -/
theorem rowsOk_filter_le_one {l : List CredsRow} {n : Nat} {t ident : String}
    (h : rowsOk l n = true) : (l.filter (rowMatch t ident)).length ≤ 1 := by
  induction l with
  | nil => simp
  | cons x xs ih =>
    simp only [rowsOk, Bool.and_eq_true, decide_eq_true_eq] at h
    by_cases hm : rowMatch t ident x = true
    · rw [List.filter_cons_of_pos hm]
      have hx := rowMatch_iff.mp hm
      have hnil : xs.filter (rowMatch t ident) = [] := by
        rw [List.filter_eq_nil_iff]
        intro y hy
        have hsep := List.all_eq_true.mp h.1.2 y hy
        simp only [Bool.and_eq_true, bne_iff_ne, ne_eq, Bool.or_eq_true] at hsep
        rw [rowMatch_iff]
        rintro ⟨h1, h2⟩
        rcases hsep.2 with hc | hc
        · exact hc (h1.trans hx.1.symm)
        · exact hc (h2.trans hx.2.symm)
      rw [hnil]
      simp
    · rw [List.filter_cons_of_neg hm]
      exact ih h.2

/-- In a well-formed table, a matching member is what `fetchone` returns. -/
theorem rowsOk_find?_of_mem {l : List CredsRow} {n : Nat} {t ident : String}
    {r : CredsRow} (h : rowsOk l n = true) (hmem : r ∈ l)
    (hr : rowMatch t ident r = true) : l.find? (rowMatch t ident) = some r := by
  induction l with
  | nil => cases hmem
  | cons x xs ih =>
    simp only [rowsOk, Bool.and_eq_true, decide_eq_true_eq] at h
    rcases List.mem_cons.mp hmem with rfl | hmem'
    · exact List.find?_cons_of_pos _ hr
    · have hx : ¬rowMatch t ident x = true := by
        intro hxm
        have hsep := List.all_eq_true.mp h.1.2 r hmem'
        simp only [Bool.and_eq_true, bne_iff_ne, ne_eq, Bool.or_eq_true] at hsep
        have hx' := rowMatch_iff.mp hxm
        have hr' := rowMatch_iff.mp hr
        rcases hsep.2 with hc | hc
        · exact hc (hr'.1.trans hx'.1.symm)
        · exact hc (hr'.2.trans hx'.2.symm)
      rw [List.find?_cons_of_neg _ hx]
      exact ih h.2 hmem'

/-- In a well-formed table, rows are identified by their id. -/
theorem rowsOk_id_unique {l : List CredsRow} {n : Nat} {r1 r2 : CredsRow}
    (h : rowsOk l n = true) (h1 : r1 ∈ l) (h2 : r2 ∈ l) (hid : r1.id = r2.id) :
    r1 = r2 := by
  induction l with
  | nil => cases h1
  | cons x xs ih =>
    simp only [rowsOk, Bool.and_eq_true, decide_eq_true_eq] at h
    have hall := List.all_eq_true.mp h.1.2
    rcases List.mem_cons.mp h1 with rfl | h1'
    · rcases List.mem_cons.mp h2 with rfl | h2'
      · rfl
      · have hsep := hall r2 h2'
        simp only [Bool.and_eq_true, bne_iff_ne, ne_eq] at hsep
        exact absurd hid.symm hsep.1
    · rcases List.mem_cons.mp h2 with rfl | h2'
      · have hsep := hall r1 h1'
        simp only [Bool.and_eq_true, bne_iff_ne, ne_eq] at hsep
        exact absurd hid hsep.1
      · exact ih h.2 h1' h2'
/-- What holds of every cache entry: the instance's `identifier` is the
codec's for its (type, content); its key is its identity fingerprint; and its
`id` tracks the store — `None` exactly while no row matches its identity,
otherwise the id of a stored row with its identity. -/
def entryOk (codec : Codec) (s : DbState) (k : String) (c : Creds) : Prop :=
  c.identifier = codec c.credsType c.credsContent ∧
  k = Creds.get_id codec c.credsType c.credsContent ∧
  (c.id = none → s.creds.find? (rowMatch c.credsType c.identifier) = none) ∧
  (∀ i, c.id = some i →
    ∃ row ∈ s.creds, row.id = i ∧ rowMatch c.credsType c.identifier row = true)

/-- The invariant of a run: a well-formed table, distinct cache keys, and
every cache entry coherent with the store. -/
def StInv (codec : Codec) (st : DbState × CredsCache) : Prop :=
  DbInv st.1 = true ∧
  st.2.Pairwise (fun p q => p.1 ≠ q.1) ∧
  ∀ p ∈ st.2, entryOk codec st.1 p.1 p.2

/-- A coherent entry's key is the hash of its (type, identifier) — so two
entries with the same identity carry the same key. -/
theorem entry_key {codec : Codec} {s : DbState} {k : String} {c : Creds}
    (h : entryOk codec s k c) :
    k = sha256Hex (utf8Encode (c.credsType ++ c.identifier)) := by
  rw [h.2.1, Creds.get_id, ← h.1]

/-- A freshly `__init__`-ed instance is a coherent cache entry for its key. -/
theorem entryOk_init (codec : Codec) (t c : String) (s : DbState) :
    entryOk codec s (Creds.get_id codec t c) (Creds.init codec t c s) := by
  have hty : (Creds.init codec t c s).credsType = t := by
    cases hfind : findByTypeIdent s t (codec t c) <;> simp only [Creds.init, hfind]
  have hcc : (Creds.init codec t c s).credsContent = c := by
    cases hfind : findByTypeIdent s t (codec t c) <;> simp only [Creds.init, hfind]
  have hident : (Creds.init codec t c s).identifier = codec t c := by
    cases hfind : findByTypeIdent s t (codec t c) <;> simp only [Creds.init, hfind]
  refine ⟨by rw [hty, hcc, hident], by rw [hty, hcc], ?_, ?_⟩
  · intro hidn
    cases hfind : findByTypeIdent s t (codec t c) with
    | none =>
      rw [hty, hident]
      exact hfind
    | some row0 =>
      have : (Creds.init codec t c s).id = some row0.id := by
        simp only [Creds.init, hfind]
      rw [this] at hidn
      cases hidn
  · intro i hi
    cases hfind : findByTypeIdent s t (codec t c) with
    | none =>
      have : (Creds.init codec t c s).id = none := by
        simp only [Creds.init, hfind]
      rw [this] at hi
      cases hi
    | some row0 =>
      have : (Creds.init codec t c s).id = some row0.id := by
        simp only [Creds.init, hfind]
      rw [this] at hi
      injection hi with hi'
      refine ⟨row0, List.mem_of_find?_eq_some hfind, hi', ?_⟩
      rw [hty, hident]
      exact List.find?_some hfind

/-- Constructing returns a coherent cache (unchanged on a hit, one coherent
entry added on a miss) holding the returned instance under its key. -/
theorem credsCall_mem (codec : Codec) (t c : String) (s : DbState) (cache : CredsCache)
    (h : StInv codec (s, cache)) :
    StInv codec (s, (credsCall codec t c s cache).2) ∧
    (Creds.get_id codec t c, (credsCall codec t c s cache).1) ∈ (credsCall codec t c s cache).2 := by
  cases hfind : cache.find? (fun p => p.1 == Creds.get_id codec t c) with
  | some p =>
    have hcall : credsCall codec t c s cache = (p.2, cache) := by
      simp only [credsCall, hfind]
    rw [hcall]
    refine ⟨h, ?_⟩
    have hk : p.1 = Creds.get_id codec t c := by
      have := List.find?_some hfind
      simpa using this
    have : (Creds.get_id codec t c, p.2) = p := by
      rw [← hk]
    rw [this]
    exact List.mem_of_find?_eq_some hfind
  | none =>
    have hcall : credsCall codec t c s cache =
        (Creds.init codec t c s, cache ++ [(Creds.get_id codec t c, Creds.init codec t c s)]) := by
      simp only [credsCall, hfind]
    rw [hcall]
    have hnew : ∀ p ∈ cache, p.1 ≠ Creds.get_id codec t c := by
      intro p hp
      have := List.find?_eq_none.mp hfind p hp
      simpa using this
    refine ⟨⟨h.1, ?_, ?_⟩, List.mem_append_right _ (by simp)⟩
    · rw [List.pairwise_append]
      refine ⟨h.2.1, by simp, ?_⟩
      intro a ha b hb
      rw [List.mem_singleton] at hb
      rw [hb]
      exact hnew a ha
    · intro p hp
      rcases List.mem_append.mp hp with hp' | hp'
      · exact h.2.2 p hp'
      · rw [List.mem_singleton] at hp'
        rw [hp']
        exact entryOk_init codec t c s

/-- Writing an instance back into its slot keeps the cache keys. -/
theorem pairwise_cacheWrite {cache : CredsCache} {k : String} {inst : Creds}
    (h : cache.Pairwise (fun p q => p.1 ≠ q.1)) :
    (cacheWrite cache k inst).Pairwise (fun p q => p.1 ≠ q.1) := by
  have hf : ∀ x : String × Creds,
      ((if x.1 == k then (x.1, inst) else x) : String × Creds).1 = x.1 := by
    intro x
    by_cases hx : (x.1 == k) = true
    · rw [if_pos hx]
    · rw [if_neg hx]
  rw [cacheWrite, List.pairwise_map]
  refine h.imp ?_
  intro a b hab
  rw [hf a, hf b]
  exact hab
/-- `Creds(t, c).save()` preserves the invariant: an unsaved shared instance
inserts a fresh row and records its new id; a saved one updates its own row in
place; every other cache entry stays coherent. -/
theorem stepOp_save_inv (codec : Codec) (t c : String) (s : DbState) (cache : CredsCache)
    (h : StInv codec (s, cache)) : StInv codec (stepOp codec (s, cache) (.save t c)) := by
  obtain ⟨hcall, hmem⟩ := credsCall_mem codec t c s cache h
  obtain ⟨inst, cache1, hci⟩ : ∃ inst cache1, credsCall codec t c s cache = (inst, cache1) :=
    ⟨_, _, rfl⟩
  rw [hci] at hcall hmem
  dsimp only at hcall hmem
  have hEntry : entryOk codec s (Creds.get_id codec t c) inst := hcall.2.2 _ hmem
  have hE1 := hEntry.1
  have hE2 := hEntry.2.1
  have hstep : stepOp codec (s, cache) (.save t c) =
      ((Creds.save inst s).2, cacheWrite cache1 (Creds.get_id codec t c) (Creds.save inst s).1) := by
    simp only [stepOp, hci]
  rw [hstep]
  cases hid : inst.id with
  | none =>
    have hfn := hEntry.2.2.1 hid
    have hrow : rowMatch inst.credsType inst.identifier
        (⟨s.nextId, inst.credsType, inst.credsContent, inst.identifier, boolToNat inst.scope, inst.found⟩ : CredsRow) = true := by
      simp [rowMatch]
    have hins := insert_row_facts hfn hrow
    have hsave : Creds.save inst s = ({ inst with id := some s.nextId },
        { s with creds := s.creds ++ [⟨s.nextId, inst.credsType, inst.credsContent, inst.identifier, boolToNat inst.scope, inst.found⟩],
                 nextId := s.nextId + 1, commits := s.commits + 1 }) := by
      simp only [Creds.save, hid, findByTypeIdent]
      rw [hins.1]
      rfl
    rw [hsave]
    refine ⟨?_, pairwise_cacheWrite hcall.2.1, ?_⟩
    · show rowsOk (s.creds ++ [_]) (s.nextId + 1) = true
      exact rowsOk_append_fresh hcall.1
        (fun x hx => Bool.not_eq_true _ ▸ (List.find?_eq_none.mp hfn x hx)) hrow rfl
    · intro q hq
      simp only [cacheWrite, List.mem_map] at hq
      obtain ⟨p, hp, hfp⟩ := hq
      have hpE := hcall.2.2 p hp
      by_cases hpk : (p.1 == Creds.get_id codec t c) = true
      · have hq2 : q = (p.1, { inst with id := some s.nextId }) := by
          rw [← hfp, if_pos hpk]
        rw [hq2]
        rw [beq_iff_eq] at hpk
        refine ⟨hE1, by rw [hpk]; exact hE2, ?_, ?_⟩
        · intro hcontra
          exact Option.noConfusion hcontra
        · intro i hi
          injection hi with hi'
          refine ⟨⟨s.nextId, inst.credsType, inst.credsContent, inst.identifier, boolToNat inst.scope, inst.found⟩,
            List.mem_append_right _ (by simp), by rw [← hi'], hrow⟩
      · have hq2 : q = p := by
          rw [← hfp, if_neg hpk]
        rw [hq2]
        refine ⟨hpE.1, hpE.2.1, ?_, ?_⟩
        · intro hidp
          have hold := hpE.2.2.1 hidp
          show (s.creds ++ [_]).find? _ = none
          rw [find?_append_of_none hold, List.find?_eq_none]
          intro x hx
          rw [List.mem_singleton] at hx
          rw [hx]
          intro hxm
          have hm := rowMatch_iff.mp hxm
          have hm1 : inst.credsType = p.2.credsType := hm.1
          have hm2 : inst.identifier = p.2.identifier := hm.2
          apply hpk
          rw [beq_iff_eq, entry_key hpE, entry_key hEntry, ← hm1, ← hm2]
        · intro i hi
          obtain ⟨r2, hr2mem, hr2id, hr2m⟩ := hpE.2.2.2 i hi
          exact ⟨r2, List.mem_append_left _ hr2mem, hr2id, hr2m⟩
  | some i =>
    obtain ⟨row0, hr0mem, hr0id, hr0m⟩ := hEntry.2.2.2 i hid
    subst hr0id
    have hfind : s.creds.find? (rowMatch inst.credsType inst.identifier) = some row0 :=
      rowsOk_find?_of_mem hcall.1 hr0mem hr0m
    have hupd := update_row_facts
      (⟨row0.id, inst.credsType, inst.credsContent, inst.identifier, boolToNat inst.scope, inst.found⟩ : CredsRow)
      hcall.1 hfind rfl (by simp [rowMatch])
    have hsave : Creds.save inst s = (inst,
        { s with creds := s.creds.map (fun r => if r.id == row0.id then ⟨row0.id, inst.credsType, inst.credsContent, inst.identifier, boolToNat inst.scope, inst.found⟩ else r), commits := s.commits + 1 }) := by
      simp only [Creds.save, hid]
    rw [hsave]
    refine ⟨hupd.2.2, pairwise_cacheWrite hcall.2.1, ?_⟩
    intro q hq
    simp only [cacheWrite, List.mem_map] at hq
    obtain ⟨p, hp, hfp⟩ := hq
    have hpE := hcall.2.2 p hp
    by_cases hpk : (p.1 == Creds.get_id codec t c) = true
    · have hq2 : q = (p.1, inst) := by
        rw [← hfp, if_pos hpk]
      rw [hq2]
      rw [beq_iff_eq] at hpk
      refine ⟨hE1, by rw [hpk]; exact hE2, ?_, ?_⟩
      · intro hcontra
        rw [hid] at hcontra
        exact Option.noConfusion hcontra
      · intro i2 hi2
        rw [hid] at hi2
        injection hi2 with hi2'
        have hnrmem : (⟨row0.id, inst.credsType, inst.credsContent, inst.identifier, boolToNat inst.scope, inst.found⟩ : CredsRow) ∈
            s.creds.map (fun r => if r.id == row0.id then ⟨row0.id, inst.credsType, inst.credsContent, inst.identifier, boolToNat inst.scope, inst.found⟩ else r) := by
          have hmf : (⟨row0.id, inst.credsType, inst.credsContent, inst.identifier, boolToNat inst.scope, inst.found⟩ : CredsRow) ∈
              (s.creds.map (fun r => if r.id == row0.id then ⟨row0.id, inst.credsType, inst.credsContent, inst.identifier, boolToNat inst.scope, inst.found⟩ else r)).filter
                (rowMatch inst.credsType inst.identifier) := by
            rw [hupd.2.1]
            simp
          exact (List.mem_filter.mp hmf).1
        refine ⟨_, hnrmem, by rw [← hi2'], by simp [rowMatch]⟩
    · have hq2 : q = p := by
        rw [← hfp, if_neg hpk]
      rw [hq2]
      refine ⟨hpE.1, hpE.2.1, ?_, ?_⟩
      · intro hidp
        have hold := hpE.2.2.1 hidp
        show (s.creds.map _).find? _ = none
        rw [List.find?_eq_none]
        intro x hx
        rw [List.mem_map] at hx
        obtain ⟨r, hr, hfr⟩ := hx
        by_cases hrid : (r.id == row0.id) = true
        · have hxnr : x = ⟨row0.id, inst.credsType, inst.credsContent, inst.identifier, boolToNat inst.scope, inst.found⟩ := by
            rw [← hfr, if_pos hrid]
          rw [hxnr]
          intro hxm
          have hm := rowMatch_iff.mp hxm
          have hm1 : inst.credsType = p.2.credsType := hm.1
          have hm2 : inst.identifier = p.2.identifier := hm.2
          apply hpk
          rw [beq_iff_eq, entry_key hpE, entry_key hEntry, ← hm1, ← hm2]
        · have hxr : x = r := by
            rw [← hfr, if_neg hrid]
          rw [hxr]
          exact List.find?_eq_none.mp hold r hr
      · intro i2 hi2
        obtain ⟨r2, hr2mem, hr2id, hr2m⟩ := hpE.2.2.2 i2 hi2
        by_cases hrid : (r2.id == row0.id) = true
        · exfalso
          have hr2eq : r2 = row0 := rowsOk_id_unique hcall.1 hr2mem hr0mem (by simpa using hrid)
          have hpm := rowMatch_iff.mp (hr2eq ▸ hr2m)
          have him := rowMatch_iff.mp hr0m
          apply hpk
          rw [beq_iff_eq, entry_key hpE, entry_key hEntry, ← hpm.1, ← hpm.2, ← him.1, ← him.2]
        · refine ⟨r2, ?_, hr2id, hr2m⟩
          rw [List.mem_map]
          exact ⟨r2, hr2mem, by rw [if_neg hrid]⟩
/-- Every step — construct, save, or restart — preserves the invariant. -/
theorem stepOp_inv (codec : Codec) (op : CredsOp) (st : DbState × CredsCache)
    (h : StInv codec st) : StInv codec (stepOp codec st op) := by
  obtain ⟨s, cache⟩ := st
  cases op with
  | construct t c => exact (credsCall_mem codec t c s cache h).1
  | save t c => exact stepOp_save_inv codec t c s cache h
  | restart => exact ⟨h.1, List.Pairwise.nil, fun p hp => absurd hp (List.not_mem_nil p)⟩

/-- Running any sequence of steps preserves the invariant. -/
theorem runOps_inv (codec : Codec) (ops : List CredsOp) (st : DbState × CredsCache)
    (h : StInv codec st) : StInv codec (runOps codec ops st) := by
  induction ops generalizing st with
  | nil => exact h
  | cons op rest ih => exact ih _ (stepOp_inv codec op st h)

/-- C2: (methodKind, identity) is unique across persisted credential rows in
every reachable store state — no sequence of constructor / save operations
(with arbitrary process restarts) starting from a fresh workspace leaves two
rows in the `creds` table with the same (type, identifier).  The `Unique`
metaclass returns the one shared instance per identity fingerprint, the
constructor looks the identity up in the store before leaving `id` unset, and
`save` inserts only while no row with the instance's identity exists — and the
whole table stays well-formed. -/
theorem creds_unique_identity_reachable (codec : Codec) (ops : List CredsOp)
    (t ident : String) :
    (((runOps codec ops (dbEmpty, ([] : CredsCache))).1.creds.filter
        (rowMatch t ident)).length ≤ 1) ∧
    DbInv (runOps codec ops (dbEmpty, ([] : CredsCache))).1 = true := by
  have h : StInv codec (runOps codec ops (dbEmpty, ([] : CredsCache))) :=
    runOps_inv codec ops (dbEmpty, [])
      ⟨rfl, List.Pairwise.nil, fun p hp => absurd hp (List.not_mem_nil p)⟩
  exact ⟨rowsOk_filter_le_one h.1, h.1⟩
